import Mathlib

/-!
Verification of the `simplefs` in-memory filesystem (`MemFS`).

This development embeds the node-tree implementation of `MemFS` (the
`dirNode` tree with `Create` / `Append` / `Open` / `ReadDir` / `ListFiles`
and commit-on-close write handles) as pure Lean functions and proves or
refutes the specification claims about it.

Modelling conventions:
- Go byte slices `[]byte` are `Option Bytes` where `none` models the `nil`
  slice and `some l` a non-nil slice with contents `l` (`Bytes := List Nat`).
  `dirNode.IsDirectory` is the source's `node.B == nil` test.
- The `Parent` back-pointer of the source is non-owning and used only for
  upward `..` navigation and `Path()` reconstruction; it is modelled by the
  explicit ancestor stack threaded through `dirNode.Get` and by the literal
  canonical path (list of child names from the root) that the same traversal
  reconstructs.
- `sync.RWMutex` disappears: operations are atomic functions on the tree, so
  the sequential semantics under the single coarse lock is exactly function
  application, and a write handle is a value holding its private buffer.
- A Go runtime panic (nil-pointer dereference) is modelled by `Option`:
  a function that can panic returns `none` in the panicking case.
- `strings.Split(name, "/")` is modelled by a structurally recursive
  splitter over the character list so that all operations evaluate by
  `decide` / `rfl`.
-/

set_option autoImplicit false

namespace SimpleFS

/-- Byte strings: contents of Go byte slices. -/
abbrev Bytes := List Nat

/-- Error values returned by the filesystem: `notFound` is the package's
`ErrNotFound` sentinel; `isFile` and `isDir` are the distinct `fmt.Errorf`
errors of `memFile.ReadDir` and `memDir.Read`; `eof` is `io.EOF`. -/
inductive Err where
  | notFound
  | isFile (name : String)
  | isDir (name : String)
  | eof
  deriving DecidableEq

instance {ε α : Type} [DecidableEq ε] [DecidableEq α] : DecidableEq (Except ε α) := fun a b =>
  match a, b with
  | .error e1, .error e2 =>
    if h : e1 = e2 then .isTrue (h ▸ rfl) else .isFalse (fun hc => h (Except.error.inj hc))
  | .ok v1, .ok v2 =>
    if h : v1 = v2 then .isTrue (h ▸ rfl) else .isFalse (fun hc => h (Except.ok.inj hc))
  | .error _, .ok _ => .isFalse (fun hc => Except.noConfusion hc)
  | .ok _, .error _ => .isFalse (fun hc => Except.noConfusion hc)

/-- Detached directory entry snapshot, the source's `dirEntry` struct. -/
structure dirEntry where
  name : String
  isDir : Bool
  deriving DecidableEq

/-- Tree node, the source's `dirNode` struct. `B = none` models a nil
content slice (directory); `some l` a non-nil slice (file). The `Parent`
pointer is not a field (see module comment). -/
inductive dirNode where
  | mk (Name : String) (B : Option Bytes) (Children : List dirNode)

def dirNode.Name : dirNode → String
  | .mk n _ _ => n

def dirNode.B : dirNode → Option Bytes
  | .mk _ b _ => b

def dirNode.Children : dirNode → List dirNode
  | .mk _ _ cs => cs

def dirNode.withB : dirNode → Option Bytes → dirNode
  | .mk n _ cs, b => .mk n b cs

def dirNode.withChildren : dirNode → List dirNode → dirNode
  | .mk n b _, cs => .mk n b cs

/-- Source `dirNode.IsDirectory`: a node is a directory iff its content
slice is nil. -/
def dirNode.IsDirectory (n : dirNode) : Bool := n.B.isNone

/-- Source `dirNodeSlice.Get`: first child with the given name. -/
def childGet : List dirNode → String → Option dirNode
  | [], _ => none
  | c :: cs, nm => if c.Name = nm then some c else childGet cs nm

/-- Replace the first child with the given name (the source mutates the
child object found by `dirNodeSlice.Get` in place). -/
def replaceFirstNamed (nm : String) (x : dirNode) : List dirNode → List dirNode
  | [] => []
  | c :: cs => if c.Name = nm then x :: cs else c :: replaceFirstNamed nm x cs

/-- Split a character list on the separator character, Go's
`strings.Split(s, "/")` (keeps empty fields; an empty string gives one
empty field). -/
def splitSlashChars : List Char → List String
  | [] => [""]
  | c :: cs =>
    if c = '/' then "" :: splitSlashChars cs
    else
      match splitSlashChars cs with
      | [] => [String.mk [c]]
      | s :: rest => String.mk (c :: s.data) :: rest

/-- Source `nameToPath`: split a path into segments on the separator. -/
def nameToPath (name : String) : List String := splitSlashChars name.data

/-- Paths whose segments contain neither `.` nor `..`: resolution on these
is plain child-name lookup. -/
def plainSegs (segs : List String) : Bool :=
  segs.all fun s => !(s == ".") && !(s == "..")

mutual

/-- Paths visited by the source's `dirNode.DFS` callback in `ListFiles`:
the node's own full path (as built by `dirNode.Path()` from the `Parent`
chain) followed by the paths of all descendants, preorder. The argument is
the node's full path string. -/
def dirNode.dfsPaths : dirNode → String → List String
  | .mk _ _ cs, p => p :: dfsPathsList cs p

def dfsPathsList : List dirNode → String → List String
  | [], _ => []
  | c :: cs, p => dirNode.dfsPaths c (p ++ "/" ++ c.Name) ++ dfsPathsList cs p

end

mutual

/-- Number of nodes in the subtree rooted at a node (the node itself,
its children, and all deeper descendants). -/
def dirNode.size : dirNode → Nat
  | .mk _ _ cs => 1 + sizeList cs

def sizeList : List dirNode → Nat
  | [] => 0
  | c :: cs => dirNode.size c + sizeList cs

end

/-- Source `dirNode.Get`, the read-path resolver: consume the path segment
by segment; `.` stays at the current node, `..` moves to the parent (the
head of the ancestor stack; `none` at the root, whose parent is nil), any
other segment must match an existing child by name. The ancestor stack is
the chain of `Parent` pointers of the current node, nearest first. -/
def dirNode.Get : dirNode → List dirNode → List String → Option dirNode
  | _, _, [] => none
  | node, anc, p :: rest =>
    let nxt : Option (dirNode × List dirNode) :=
      if p = "." then some (node, anc)
      else if p = ".." then
        match anc with
        | [] => none
        | a :: anc2 => some (a, anc2)
      else
        match childGet node.Children p with
        | none => none
        | some c => some (c, node :: anc)
    match nxt with
    | none => none
    | some (next, anc2) =>
      match rest with
      | [] => some next
      | _ :: _ => dirNode.Get next anc2 rest

/-- Instrumented variant of `dirNode.Get` that additionally reconstructs
the literal canonical path (child names from the root) of the resolved
node, i.e. the information carried by the source's `Parent` pointer chain.
`dirNode.Get` and the first component agree (`Get_eq_GetCanon`). -/
def dirNode.GetCanon : dirNode → List dirNode → List String → List String →
    Option (dirNode × List String)
  | _, _, _, [] => none
  | node, anc, canon, p :: rest =>
    let nxt : Option (dirNode × List dirNode × List String) :=
      if p = "." then some (node, anc, canon)
      else if p = ".." then
        match anc with
        | [] => none
        | a :: anc2 => some (a, anc2, canon.dropLast)
      else
        match childGet node.Children p with
        | none => none
        | some c => some (c, node :: anc, canon ++ [p])
    match nxt with
    | none => none
    | some (next, anc2, canon2) =>
      match rest with
      | [] => some (next, canon2)
      | _ :: _ => dirNode.GetCanon next anc2 canon2 rest

/-- Follow a literal canonical path (no `.` or `..` interpretation): the
node reached from `n` by looking up each name with `childGet`. This is the
pure-model notion of "the node a source pointer refers to". -/
def nodeAt : dirNode → List String → Option dirNode
  | n, [] => some n
  | n, p :: rest =>
    match childGet n.Children p with
    | none => none
    | some c => nodeAt c rest

/-- Apply `f` to the node at a literal canonical path, rebuilding the tree
(the pure counterpart of mutating through a source pointer). If the path
does not exist the tree is unchanged (never happens for paths obtained
from a successful resolution). -/
def updateAt (f : dirNode → dirNode) : dirNode → List String → dirNode
  | n, [] => f n
  | n, p :: rest =>
    match childGet n.Children p with
    | none => n
    | some c => n.withChildren (replaceFirstNamed p (updateAt f c rest) n.Children)

/-- Lexicographic strict order on character lists, Go's `<` on strings
(bytewise there, character-wise here: identical on the ASCII names this
code handles). -/
def charListLT : List Char → List Char → Bool
  | [], [] => false
  | [], _ :: _ => true
  | _ :: _, [] => false
  | a :: as, b :: bs =>
    if a.toNat < b.toNat then true
    else if b.toNat < a.toNat then false
    else charListLT as bs

/-- Go string comparison `a < b`. -/
def strLT (a b : String) : Bool := charListLT a.data b.data

/-- Non-strict companion of `strLT` (`a ≤ b` iff not `b < a`). -/
def strLE (a b : String) : Bool := !(strLT b a)

theorem charListLT_asymm : ∀ x y : List Char, charListLT x y = true → charListLT y x = false
  | [], [], h => by simp [charListLT] at h
  | [], _ :: _, _ => by simp [charListLT]
  | _ :: _, [], h => by simp [charListLT] at h
  | a :: as, b :: bs, h => by
    simp only [charListLT] at h ⊢
    rcases Nat.lt_trichotomy a.toNat b.toNat with hab | hab | hab
    · simp [hab, Nat.lt_asymm hab]
    · simp only [hab, Nat.lt_irrefl, if_false] at h ⊢
      exact charListLT_asymm as bs h
    · simp [hab, Nat.lt_asymm hab] at h

theorem charListLT_trans :
    ∀ x y z : List Char, charListLT x y = true → charListLT y z = true → charListLT x z = true
  | [], _, _ :: _, _, _ => by simp [charListLT]
  | [], _ :: _, [], _, h2 => by simp [charListLT] at h2
  | [], [], [], h1, _ => by simp [charListLT] at h1
  | _ :: _, [], _, h1, _ => by simp [charListLT] at h1
  | _ :: _, _ :: _, [], _, h2 => by simp [charListLT] at h2
  | a :: as, b :: bs, c :: cs, h1, h2 => by
    simp only [charListLT] at h1 h2 ⊢
    rcases Nat.lt_trichotomy a.toNat b.toNat with hab | hab | hab
    · rcases Nat.lt_trichotomy b.toNat c.toNat with hbc | hbc | hbc
      · simp [Nat.lt_trans hab hbc]
      · simp [hbc ▸ hab]
      · simp [hbc, Nat.lt_asymm hbc] at h2
    · rcases Nat.lt_trichotomy b.toNat c.toNat with hbc | hbc | hbc
      · simp [hab ▸ hbc]
      · have hac : a.toNat = c.toNat := hab.trans hbc
        simp only [hab, Nat.lt_irrefl, if_false] at h1
        simp only [hbc, Nat.lt_irrefl, if_false] at h2
        simp only [hac, Nat.lt_irrefl, if_false]
        exact charListLT_trans as bs cs h1 h2
      · simp [hbc, Nat.lt_asymm hbc] at h2
    · simp [hab, Nat.lt_asymm hab] at h1

theorem charListLT_conn :
    ∀ x y : List Char, charListLT x y = false → charListLT y x = false → x = y
  | [], [], _, _ => rfl
  | [], _ :: _, h1, _ => by simp [charListLT] at h1
  | _ :: _, [], _, h2 => by simp [charListLT] at h2
  | a :: as, b :: bs, h1, h2 => by
    simp only [charListLT] at h1 h2
    rcases Nat.lt_trichotomy a.toNat b.toNat with hab | hab | hab
    · simp [hab] at h1
    · have hc : a = b := Char.ext (UInt32.ext hab)
      subst hc
      simp only [Nat.lt_irrefl, if_false] at h1 h2
      rw [charListLT_conn as bs h1 h2]
    · simp [hab, Nat.lt_asymm hab] at h2

theorem strLE_total (a b : String) : strLE a b = true ∨ strLE b a = true := by
  by_cases h : strLT b a = true
  · right
    simp [strLE, strLT, charListLT_asymm _ _ h]
  · left
    simp only [strLE, Bool.not_eq_true] at h ⊢
    simp [h]

theorem strLE_trans {a b c : String} (h1 : strLE a b = true) (h2 : strLE b c = true) :
    strLE a c = true := by
  simp only [strLE, strLT, Bool.not_eq_true'] at h1 h2 ⊢
  cases hca : charListLT c.data a.data with
  | false => rfl
  | true =>
    by_cases hbc : charListLT b.data c.data = true
    · by_cases hab : charListLT a.data b.data = true
      · have hac := charListLT_trans _ _ _ hab hbc
        have hf := charListLT_asymm _ _ hac
        simp [hf] at hca
      · have hab2 : a.data = b.data := charListLT_conn _ _ (by simpa using hab) h1
        rw [hab2] at hca
        simp [h2] at hca
    · have hbc2 : b.data = c.data := charListLT_conn _ _ (by simpa using hbc) h2
      rw [← hbc2] at hca
      simp [h1] at hca

/-- Child ordering used by `sort.Sort(node.Children)` (ascending name). -/
def nodeLE (a b : dirNode) : Prop := strLE a.Name b.Name = true

instance : DecidableRel nodeLE := fun a b => inferInstanceAs (Decidable (strLE a.Name b.Name = true))

instance : IsTotal dirNode nodeLE := ⟨fun a b => strLE_total a.Name b.Name⟩

instance : IsTrans dirNode nodeLE := ⟨fun _ _ _ h1 h2 => strLE_trans h1 h2⟩

/-- Sorting performed by `sort.Sort` in `AddChild` (a sorted permutation;
the source's comparator is `Name <`, and any sort satisfying it yields a
by-name-sorted permutation, realised here by insertion sort). -/
def sortChildren (cs : List dirNode) : List dirNode := List.insertionSort nodeLE cs

/-- Source `dirNode.AddChild`: append a fresh node (with the given content
slice) to the children and re-sort them by name. -/
def dirNode.AddChild (n : dirNode) (nm : String) (b : Option Bytes) : dirNode :=
  n.withChildren (sortChildren (n.Children ++ [dirNode.mk nm b []]))

/-- Source `dirNode.AddDescendant`: walk the path literally (no `.` or
`..` interpretation); for each non-final segment reuse or create a
directory child (nil content), for the final segment reuse the existing
child or create one holding `b`. The node the source returns is the one at
the literal path (see `AddDescendant_nodeAt`). -/
def dirNode.AddDescendant (b : Option Bytes) : dirNode → List String → dirNode
  | n, [] => n
  | n, [p] =>
    match childGet n.Children p with
    | some _ => n
    | none => n.AddChild p b
  | n, p :: q :: rest =>
    let n2 :=
      match childGet n.Children p with
      | some _ => n
      | none => n.AddChild p none
    match childGet n2.Children p with
    | none => n2
    | some c => n2.withChildren (replaceFirstNamed p (dirNode.AddDescendant b c (q :: rest)) n2.Children)

/-- Entry ordering used by `sort.Slice` in `MemFS.ReadDir`: ascending name. -/
def entryLE (a b : dirEntry) : Prop := strLE a.name b.name = true

instance : DecidableRel entryLE := fun a b => inferInstanceAs (Decidable (strLE a.name b.name = true))

instance : IsTotal dirEntry entryLE := ⟨fun a b => strLE_total a.name b.name⟩

instance : IsTrans dirEntry entryLE := ⟨fun _ _ _ h1 h2 => strLE_trans h1 h2⟩

/-- Entry built for a child in `MemFS.ReadDir`. -/
def entryOf (c : dirNode) : dirEntry := ⟨c.Name, c.IsDirectory⟩

/-- Sorting performed by `sort.Slice` in `MemFS.ReadDir` (ascending name). -/
def sortEntries (es : List dirEntry) : List dirEntry := List.insertionSort entryLE es

/-- Root of a freshly initialised `MemFS` (`fs.init` allocates `&dirNode{}`:
empty name, nil content — a directory — and no children). -/
def MemFS.emptyRoot : dirNode := .mk "" none []

/-- Result of `MemFS.Open`: a `memFile` handle carries a snapshot of the
node's content (`bytes.NewBuffer(node.B)`), a `memDir` handle carries the
path it was opened with. -/
inductive OpenResult where
  | file (name : String) (content : Bytes)
  | dir (name : String)
  deriving DecidableEq

/-- Source `MemFS.Open`: resolve; absent is `ErrNotFound`; a directory
node yields a directory handle, a file node a reader over the content. -/
def MemFS.Open (root : dirNode) (name : String) : Except Err OpenResult :=
  match dirNode.Get root [] (nameToPath name) with
  | none => .error .notFound
  | some node =>
    if node.IsDirectory then .ok (.dir name)
    else .ok (.file name (node.B.getD []))

/-- Source `MemFS.ReadDir`: resolve; absent or a file node is
`ErrNotFound` (the source comment reads "If dir a file, return
ErrNotFound"); otherwise one entry per direct child, sorted by name. -/
def MemFS.ReadDir (root : dirNode) (dir : String) : Except Err (List dirEntry) :=
  match dirNode.Get root [] (nameToPath dir) with
  | none => .error .notFound
  | some node =>
    if node.IsDirectory then
      .ok (sortEntries (node.Children.map entryOf))
    else .error .notFound

/-- Full path of a node whose canonical path from the root is `canon`, as
built by the source's `dirNode.Path()` (the root has the empty name, so
every path starts with the separator). -/
def pathOfCanon (canon : List String) : String :=
  canon.foldl (fun s seg => s ++ "/" ++ seg) ""

/-- Source `MemFS.ListFiles`: resolve; a file node is `ErrNotFound`; a
directory node yields the `Path()` of every node of its subtree in
DFS preorder (itself included). When the path does not resolve the source
calls `DFS` on a nil pointer and panics: modelled as `none`. -/
def MemFS.ListFiles (root : dirNode) (dir : String) : Option (Except Err (List String)) :=
  match dirNode.GetCanon root [] [] (nameToPath dir) with
  | some (node, canon) =>
    if node.IsDirectory then some (.ok (node.dfsPaths (pathOfCanon canon)))
    else some (.error .notFound)
  | none => none

/-- What a write handle will do at close time: a `Create`-origin handle
commits to a path (`GetOrAdd` then content replacement), an
`Append`-origin handle holds a reference to the node it found at `Append`
time, modelled by that node's canonical path (node identity is stable:
nodes are never removed or renamed). -/
inductive WTarget where
  | createPath (segs : List String)
  | nodeRef (canon : List String)
  deriving DecidableEq

/-- Source `writeCloser`: the private, unshared write buffer plus the
close action's target. Bytes written go only into `buf` until `Close`. -/
structure writeCloser where
  target : WTarget
  buf : Bytes
  deriving DecidableEq

/-- Source `MemFS.Create`: returns a buffering handle; the tree is not
touched until `Close` (the `fs` argument is unused before then). -/
def MemFS.Create (_ : dirNode) (name : String) : writeCloser :=
  ⟨.createPath (nameToPath name), []⟩

/-- Source `MemFS.Append`: if the path resolves, remember the found node
(by canonical path) and append to it at close time; otherwise fall back to
`Create`. -/
def MemFS.Append (root : dirNode) (name : String) : writeCloser :=
  match dirNode.GetCanon root [] [] (nameToPath name) with
  | none => MemFS.Create root name
  | some (_, canon) => ⟨.nodeRef canon, []⟩

/-- Source `writeCloser.Write`: append to the private buffer only. -/
def writeCloser.Write (w : writeCloser) (b : Bytes) : writeCloser :=
  { w with buf := w.buf ++ b }

/-- Go `got.B = append(got.B, b...)` where `b` is the handle's buffer made
non-nil by `getBytes`: appending zero bytes to a nil slice leaves it nil;
appending to anything else yields the concatenation (non-nil). -/
def appendB : Option Bytes → Bytes → Option Bytes
  | none, [] => none
  | none, b :: bs => some (b :: bs)
  | some c, bs => some (c ++ bs)

/-- Close action of a `Create`-origin handle: `getBytes` makes the buffer
a non-nil slice `b`; `GetOrAdd` finds the node resolving the path, or
builds the literal path if resolution fails; then `node.B = b` replaces
that node's content wholesale. -/
def MemFS.createClose (root : dirNode) (segs : List String) (b : Bytes) : dirNode :=
  match dirNode.GetCanon root [] [] segs with
  | some (_, canon) => updateAt (fun n => n.withB (some b)) root canon
  | none => updateAt (fun n => n.withB (some b)) (dirNode.AddDescendant (some b) root segs) segs

/-- Source `writeCloser.Close`: run the close action captured at
`Create` / `Append` time, publishing the private buffer into the tree. -/
def writeCloser.Close (root : dirNode) (w : writeCloser) : dirNode :=
  match w.target with
  | .createPath segs => MemFS.createClose root segs w.buf
  | .nodeRef canon => updateAt (fun n => n.withB (appendB n.B w.buf)) root canon

/-- Client-visible operation on one `MemFS`, for whole-trace statements:
open a write handle (`create` / `append`), write to a handle by index, or
close a handle by index. Read operations are pure and need no step. -/
inductive Op where
  | create (p : String)
  | append (p : String)
  | write (i : Nat) (b : Bytes)
  | close (i : Nat)

/-- A filesystem together with the write handles handed out so far. -/
structure St where
  root : dirNode
  hs : List writeCloser

/-- Update the element at an index, if present. -/
def listUpdate {α : Type} : List α → Nat → (α → α) → List α
  | [], _, _ => []
  | a :: as, 0, f => f a :: as
  | a :: as, i + 1, f => a :: listUpdate as i f

/-- One step of the operation machine. -/
def step (s : St) : Op → St
  | .create p => { s with hs := s.hs ++ [MemFS.Create s.root p] }
  | .append p => { s with hs := s.hs ++ [MemFS.Append s.root p] }
  | .write i b => { s with hs := listUpdate s.hs i (fun w => w.Write b) }
  | .close i =>
    match s.hs[i]? with
    | none => s
    | some w => { s with root := w.Close s.root }

/-- Run a trace of operations. -/
def run (s : St) (ops : List Op) : St := ops.foldl step s

/-- Source `memDir`: a directory handle; `readDirEntries = none` models
the nil (not yet loaded) cache, `some l` the remaining cached entries. -/
structure memDir where
  name : String
  readDirEntries : Option (List dirEntry)
  deriving DecidableEq

/-- Paging logic of `memDir.ReadDir` once the cache `l` is loaded: an
empty cache returns no entries, with `io.EOF` exactly when a finite count
was requested; otherwise `size` is clamped to the remaining length and the
first `size` entries are returned and consumed. -/
def memDir.ReadDirLoaded (d : memDir) (l : List dirEntry) (n : Int) :
    memDir × (List dirEntry × Option Err) :=
  if l = [] then
    if n < 0 then (d, ([], none)) else (d, ([], some .eof))
  else
    let size := if n < 0 ∨ (l.length : Int) < n then l.length else n.toNat
    ({ d with readDirEntries := some (l.drop size) }, (l.take size, none))

/-- Source `memDir.ReadDir`: on first call load the sorted entries from
the live filesystem (errors propagate and leave the cache unloaded), then
serve pages from the cached snapshot. -/
def memDir.ReadDir (root : dirNode) (d : memDir) (n : Int) :
    memDir × (List dirEntry × Option Err) :=
  match d.readDirEntries with
  | none =>
    match MemFS.ReadDir root d.name with
    | .error e => (d, ([], some e))
    | .ok entries => memDir.ReadDirLoaded { d with readDirEntries := some entries } entries n
  | some l => memDir.ReadDirLoaded d l n

/-- Source `memFile`: a file handle holding a content snapshot. -/
structure memFile where
  name : String
  buf : Bytes
  deriving DecidableEq

/-- Source `memFile.ReadDir`: always the distinct "cannot ReadDir: Path is
a file" error, never `ErrNotFound`. -/
def memFile.ReadDir (f : memFile) (_ : Int) : Except Err (List dirEntry) :=
  .error (.isFile f.name)

/-- Source `memDir.Read`: always the distinct "cannot read: Path is a
directory" error. -/
def memDir.Read (d : memDir) : Except Err Bytes :=
  .error (.isDir d.name)

/-- Repeatedly call `memDir.ReadDir` with page size `n`, concatenating the
returned entries, until a signal (such as `io.EOF`) is returned or the
fuel runs out; also report the final signal. -/
def drainPages (root : dirNode) (n : Int) : memDir → Nat → List dirEntry × Option Err
  | _, 0 => ([], none)
  | d, fuel + 1 =>
    match memDir.ReadDir root d n with
    | (d2, (es, none)) =>
      let r := drainPages root n d2 fuel
      (es ++ r.1, r.2)
    | (_, (es, some e)) => (es, some e)

/-! Basic lemmas about node accessors, child lookup and the sorted child
list: the first-match lookup `childGet` is invariant under the (stable,
name-keyed) insertion sort and under replacing the first match by a node
of the same name. -/

@[simp] theorem dirNode.Name_mk (n : String) (b : Option Bytes) (cs : List dirNode) :
    (dirNode.mk n b cs).Name = n := rfl

@[simp] theorem dirNode.B_mk (n : String) (b : Option Bytes) (cs : List dirNode) :
    (dirNode.mk n b cs).B = b := rfl

@[simp] theorem dirNode.Children_mk (n : String) (b : Option Bytes) (cs : List dirNode) :
    (dirNode.mk n b cs).Children = cs := rfl

@[simp] theorem dirNode.Name_withB (n : dirNode) (b : Option Bytes) :
    (n.withB b).Name = n.Name := by cases n; rfl

@[simp] theorem dirNode.B_withB (n : dirNode) (b : Option Bytes) :
    (n.withB b).B = b := by cases n; rfl

@[simp] theorem dirNode.Children_withB (n : dirNode) (b : Option Bytes) :
    (n.withB b).Children = n.Children := by cases n; rfl

@[simp] theorem dirNode.Name_withChildren (n : dirNode) (cs : List dirNode) :
    (n.withChildren cs).Name = n.Name := by cases n; rfl

@[simp] theorem dirNode.B_withChildren (n : dirNode) (cs : List dirNode) :
    (n.withChildren cs).B = n.B := by cases n; rfl

@[simp] theorem dirNode.Children_withChildren (n : dirNode) (cs : List dirNode) :
    (n.withChildren cs).Children = cs := by cases n; rfl

theorem childGet_name : ∀ {cs : List dirNode} {p : String} {c : dirNode},
    childGet cs p = some c → c.Name = p
  | [], _, _, h => by simp [childGet] at h
  | d :: ds, p, c, h => by
    by_cases hd : d.Name = p
    · simp only [childGet, hd, if_pos] at h
      cases h
      exact hd
    · simp only [childGet, hd, if_neg, if_false] at h
      exact childGet_name h

theorem childGet_none_iff {cs : List dirNode} {p : String} :
    childGet cs p = none ↔ ∀ c ∈ cs, c.Name ≠ p := by
  induction cs with
  | nil => simp [childGet]
  | cons d ds ih =>
    by_cases hd : d.Name = p
    · simp [childGet, hd]
    · simp [childGet, hd, ih]

theorem childGet_append (cs ds : List dirNode) (p : String) :
    childGet (cs ++ ds) p =
      match childGet cs p with
      | some c => some c
      | none => childGet ds p := by
  induction cs with
  | nil => simp [childGet]
  | cons d dtl ih =>
    by_cases hd : d.Name = p
    · simp [childGet, hd]
    · simp [childGet, hd, ih]

theorem strLT_irrefl (s : String) : strLT s s = false := by
  show charListLT s.data s.data = false
  induction s.data with
  | nil => rfl
  | cons c cs ih => simp [charListLT, ih]

theorem childGet_orderedInsert_of_ne {x : dirNode} {p : String} (h : x.Name ≠ p)
    (cs : List dirNode) : childGet (List.orderedInsert nodeLE x cs) p = childGet cs p := by
  induction cs with
  | nil => simp [childGet, h]
  | cons d ds ih =>
    by_cases hle : nodeLE x d
    · simp [List.orderedInsert, hle, childGet, h]
    · by_cases hd : d.Name = p
      · simp [List.orderedInsert, hle, childGet, hd]
      · simp [List.orderedInsert, hle, childGet, hd, ih]

theorem childGet_orderedInsert_self {x : dirNode} {p : String} (h : x.Name = p)
    (cs : List dirNode) : childGet (List.orderedInsert nodeLE x cs) p = some x := by
  induction cs with
  | nil => simp [childGet, h]
  | cons d ds ih =>
    by_cases hle : nodeLE x d
    · simp [List.orderedInsert, hle, childGet, h]
    · have hd : d.Name ≠ p := by
        intro hdp
        apply hle
        show strLE x.Name d.Name = true
        rw [h, hdp, strLE, strLT_irrefl]
        rfl
      simp [List.orderedInsert, hle, childGet, hd, ih]

theorem childGet_sortChildren (cs : List dirNode) (p : String) :
    childGet (sortChildren cs) p = childGet cs p := by
  induction cs with
  | nil => rfl
  | cons d ds ih =>
    show childGet (List.orderedInsert nodeLE d (List.insertionSort nodeLE ds)) p = _
    by_cases hd : d.Name = p
    · rw [childGet_orderedInsert_self hd]
      simp [childGet, hd]
    · rw [childGet_orderedInsert_of_ne hd]
      simpa [childGet, hd] using ih

theorem childGet_replaceFirstNamed_self :
    ∀ {cs : List dirNode} {p : String} {c x : dirNode}, childGet cs p = some c →
      x.Name = p → childGet (replaceFirstNamed p x cs) p = some x
  | [], _, _, _, h, _ => by simp [childGet] at h
  | d :: ds, p, c, x, h, hx => by
    by_cases hd : d.Name = p
    · simp [replaceFirstNamed, hd, childGet, hx]
    · simp only [childGet, hd, if_neg, if_false] at h
      simp only [replaceFirstNamed, hd, if_neg, if_false]
      simp only [childGet, hd, if_neg, if_false]
      exact childGet_replaceFirstNamed_self h hx

theorem childGet_replaceFirstNamed_of_ne :
    ∀ {p q : String} {x : dirNode} (cs : List dirNode), x.Name = p → q ≠ p →
      childGet (replaceFirstNamed p x cs) q = childGet cs q
  | p, q, x, [], _, _ => rfl
  | p, q, x, d :: ds, hx, hq => by
    by_cases hd : d.Name = p
    · have hdq : d.Name ≠ q := fun hc => hq (hc.symm.trans hd)
      have hxq : x.Name ≠ q := fun hc => hq (hc.symm.trans hx)
      simp [replaceFirstNamed, hd, childGet, hdq, hxq, Ne.symm hq]
    · by_cases hdq : d.Name = q
      · simp [replaceFirstNamed, hd, childGet, hdq, hq]
      · simp [replaceFirstNamed, hd, childGet, hdq, hq,
          childGet_replaceFirstNamed_of_ne ds hx hq]

/-! Lemmas relating literal navigation (`nodeAt`), point updates
(`updateAt`) and node creation (`AddDescendant`). -/

theorem updateAt_Name (f : dirNode → dirNode) (hname : ∀ x, (f x).Name = x.Name) :
    ∀ (q : List String) (n : dirNode), (updateAt f n q).Name = n.Name
  | [], n => hname n
  | p :: rest, n => by
    cases hc : childGet n.Children p with
    | none => simp [updateAt, hc]
    | some c => simp [updateAt, hc]

theorem nodeAt_updateAt_self (f : dirNode → dirNode) (hname : ∀ x, (f x).Name = x.Name) :
    ∀ (q : List String) (n m : dirNode), nodeAt n q = some m →
      nodeAt (updateAt f n q) q = some (f m)
  | [], n, m, h => by
    injection h with h2
    rw [← h2]
    rfl
  | p :: rest, n, m, h => by
    simp only [nodeAt] at h
    cases hc : childGet n.Children p with
    | none => rw [hc] at h; exact absurd h (by simp)
    | some c =>
      rw [hc] at h
      have hcp : c.Name = p := childGet_name hc
      have hrec := nodeAt_updateAt_self f hname rest c m h
      have hun : (updateAt f c rest).Name = p := by rw [updateAt_Name f hname, hcp]
      simp only [updateAt, hc, nodeAt, dirNode.Children_withChildren]
      rw [childGet_replaceFirstNamed_self hc hun]
      exact hrec

theorem nodeAt_updateAt_ne (f : dirNode → dirNode) (hname : ∀ x, (f x).Name = x.Name)
    (hch : ∀ x, (f x).Children = x.Children) :
    ∀ (q q2 : List String) (n m : dirNode), q ≠ q2 → nodeAt n q2 = some m →
      ∃ m2, nodeAt (updateAt f n q) q2 = some m2 ∧ m2.B = m.B ∧ m2.Name = m.Name
  | [], [], _, _, hne, _ => absurd rfl hne
  | [], p2 :: rest2, n, m, _, h => by
    refine ⟨m, ?_, rfl, rfl⟩
    simp only [nodeAt, updateAt] at h ⊢
    rw [hch]
    exact h
  | p :: rest, q2, n, m, hne, h => by
    cases hc : childGet n.Children p with
    | none => exact ⟨m, by simpa [updateAt, hc] using h, rfl, rfl⟩
    | some c =>
      have hcp : c.Name = p := childGet_name hc
      have hun : (updateAt f c rest).Name = p := by rw [updateAt_Name f hname, hcp]
      cases q2 with
      | nil =>
        have hm : n = m := by simpa [nodeAt] using h
        refine ⟨n.withChildren (replaceFirstNamed p (updateAt f c rest) n.Children),
          by simp [updateAt, hc, nodeAt], ?_, ?_⟩
        · rw [← hm]; simp
        · rw [← hm]; simp
      | cons p2 rest2 =>
        by_cases hpp : p2 = p
        · subst hpp
          have hrr : rest ≠ rest2 := fun hr => hne (by rw [hr])
          simp only [nodeAt] at h
          rw [hc] at h
          obtain ⟨m2, hm2, hB, hN⟩ := nodeAt_updateAt_ne f hname hch rest rest2 c m hrr h
          refine ⟨m2, ?_, hB, hN⟩
          simp only [updateAt, hc, nodeAt, dirNode.Children_withChildren]
          rw [childGet_replaceFirstNamed_self hc hun]
          exact hm2
        · refine ⟨m, ?_, rfl, rfl⟩
          simp only [updateAt, hc, nodeAt, dirNode.Children_withChildren]
          rw [childGet_replaceFirstNamed_of_ne n.Children hun hpp]
          simp only [nodeAt] at h
          exact h

theorem childGet_AddChild_self (n : dirNode) (p : String) (b : Option Bytes)
    (h : childGet n.Children p = none) :
    childGet (n.AddChild p b).Children p = some (dirNode.mk p b []) := by
  simp only [dirNode.AddChild, dirNode.Children_withChildren, childGet_sortChildren]
  rw [childGet_append, h]
  simp [childGet]

theorem childGet_AddChild_of_ne (n : dirNode) (p q : String) (b : Option Bytes) (hq : q ≠ p) :
    childGet (n.AddChild p b).Children q = childGet n.Children q := by
  simp only [dirNode.AddChild, dirNode.Children_withChildren, childGet_sortChildren]
  rw [childGet_append]
  cases hc : childGet n.Children q with
  | some c => rfl
  | none => simp [childGet, Ne.symm hq]

theorem AddDescendant_Name (b : Option Bytes) :
    ∀ (segs : List String) (n : dirNode), (dirNode.AddDescendant b n segs).Name = n.Name
  | [], _ => rfl
  | [p], n => by
    cases hc : childGet n.Children p with
    | some c => simp [dirNode.AddDescendant, hc]
    | none => simp [dirNode.AddDescendant, hc, dirNode.AddChild]
  | p :: q :: rest, n => by
    cases hc : childGet n.Children p with
    | some c => simp [dirNode.AddDescendant, hc]
    | none =>
      have hc2 := childGet_AddChild_self n p none hc
      simp only [dirNode.AddDescendant, hc, hc2]
      simp [dirNode.AddChild]

theorem nodeAt_AddDescendant (b : Option Bytes) :
    ∀ (segs : List String) (n : dirNode), segs ≠ [] →
      ∃ m, nodeAt (dirNode.AddDescendant b n segs) segs = some m
  | [], _, h0 => absurd rfl h0
  | [p], n, _ => by
    cases hc : childGet n.Children p with
    | some c => exact ⟨c, by simp [dirNode.AddDescendant, hc, nodeAt]⟩
    | none =>
      refine ⟨.mk p b [], ?_⟩
      simp only [dirNode.AddDescendant, hc, nodeAt]
      rw [childGet_AddChild_self n p b hc]
  | p :: q :: rest, n, _ => by
    cases hc : childGet n.Children p with
    | some c =>
      obtain ⟨m, hm⟩ := nodeAt_AddDescendant b (q :: rest) c (by simp)
      refine ⟨m, ?_⟩
      have hname : (dirNode.AddDescendant b c (q :: rest)).Name = p := by
        rw [AddDescendant_Name, childGet_name hc]
      simp only [dirNode.AddDescendant, hc, nodeAt, dirNode.Children_withChildren]
      rw [childGet_replaceFirstNamed_self hc hname]
      exact hm
    | none =>
      obtain ⟨m, hm⟩ := nodeAt_AddDescendant b (q :: rest) (.mk p none []) (by simp)
      refine ⟨m, ?_⟩
      have hc2 := childGet_AddChild_self n p none hc
      have hname : (dirNode.AddDescendant b (dirNode.mk p none []) (q :: rest)).Name = p := by
        rw [AddDescendant_Name]
        rfl
      simp only [dirNode.AddDescendant, hc, hc2, nodeAt, dirNode.Children_withChildren]
      rw [childGet_replaceFirstNamed_self hc2 hname]
      exact hm

theorem nodeAt_AddDescendant_frame (b : Option Bytes) :
    ∀ (segs q : List String) (n m : dirNode), nodeAt n q = some m →
      ∃ m2, nodeAt (dirNode.AddDescendant b n segs) q = some m2 ∧ m2.B = m.B
  | [], _, _, m, h => ⟨m, h, rfl⟩
  | [p], q, n, m, h => by
    cases hc : childGet n.Children p with
    | some c => exact ⟨m, by simpa [dirNode.AddDescendant, hc] using h, rfl⟩
    | none =>
      cases q with
      | nil =>
        have hm : n = m := by simpa [nodeAt] using h
        refine ⟨n.AddChild p b, by simp [dirNode.AddDescendant, hc, nodeAt], ?_⟩
        rw [← hm]
        simp [dirNode.AddChild]
      | cons p2 rest2 =>
        by_cases hpp : p2 = p
        · subst hpp
          simp only [nodeAt] at h
          rw [hc] at h
          exact absurd h (by simp)
        · refine ⟨m, ?_, rfl⟩
          simp only [dirNode.AddDescendant, hc, nodeAt]
          rw [childGet_AddChild_of_ne n p p2 b hpp]
          simp only [nodeAt] at h
          exact h
  | p :: q' :: rest, q, n, m, h => by
    cases hc : childGet n.Children p with
    | some c =>
      have hname : (dirNode.AddDescendant b c (q' :: rest)).Name = p := by
        rw [AddDescendant_Name, childGet_name hc]
      cases q with
      | nil =>
        have hm : n = m := by simpa [nodeAt] using h
        refine ⟨n.withChildren (replaceFirstNamed p (dirNode.AddDescendant b c (q' :: rest)) n.Children),
          by simp [dirNode.AddDescendant, hc, nodeAt], ?_⟩
        rw [← hm]
        simp
      | cons p2 rest2 =>
        by_cases hpp : p2 = p
        · subst hpp
          simp only [nodeAt] at h
          rw [hc] at h
          obtain ⟨m2, hm2, hB⟩ := nodeAt_AddDescendant_frame b (q' :: rest) rest2 c m h
          refine ⟨m2, ?_, hB⟩
          simp only [dirNode.AddDescendant, hc, nodeAt, dirNode.Children_withChildren]
          rw [childGet_replaceFirstNamed_self hc hname]
          exact hm2
        · refine ⟨m, ?_, rfl⟩
          simp only [dirNode.AddDescendant, hc, nodeAt, dirNode.Children_withChildren]
          rw [childGet_replaceFirstNamed_of_ne n.Children hname hpp]
          simp only [nodeAt] at h
          exact h
    | none =>
      have hc2 := childGet_AddChild_self n p none hc
      have hname : (dirNode.AddDescendant b (dirNode.mk p none []) (q' :: rest)).Name = p := by
        rw [AddDescendant_Name]
        rfl
      cases q with
      | nil =>
        have hm : n = m := by simpa [nodeAt] using h
        refine ⟨(n.AddChild p none).withChildren
          (replaceFirstNamed p (dirNode.AddDescendant b (dirNode.mk p none []) (q' :: rest))
            (n.AddChild p none).Children),
          by simp [dirNode.AddDescendant, hc, hc2, nodeAt], ?_⟩
        rw [← hm]
        simp [dirNode.AddChild]
      | cons p2 rest2 =>
        by_cases hpp : p2 = p
        · subst hpp
          simp only [nodeAt] at h
          rw [hc] at h
          exact absurd h (by simp)
        · refine ⟨m, ?_, rfl⟩
          simp only [dirNode.AddDescendant, hc, hc2, nodeAt, dirNode.Children_withChildren]
          rw [childGet_replaceFirstNamed_of_ne _ hname hpp]
          rw [childGet_AddChild_of_ne n p p2 none hpp]
          simp only [nodeAt] at h
          exact h

/-! Resolution on plain (`.`- and `..`-free) paths is literal navigation,
and the canonical path returned by `GetCanon` always leads back to the
resolved node (the `Chain` invariant of the ancestor stack). -/

theorem plainSegs_cons {p : String} {rest : List String} (h : plainSegs (p :: rest) = true) :
    p ≠ "." ∧ p ≠ ".." ∧ plainSegs rest = true := by
  simp only [plainSegs, List.all_cons, Bool.and_eq_true, Bool.not_eq_true', beq_eq_false_iff_ne]
  at h
  exact ⟨h.1.1, h.1.2, h.2⟩

theorem Get_plain : ∀ (segs : List String) (node : dirNode) (anc : List dirNode),
    plainSegs segs = true → segs ≠ [] → dirNode.Get node anc segs = nodeAt node segs
  | [], _, _, _, h0 => absurd rfl h0
  | p :: rest, node, anc, hp, _ => by
    obtain ⟨h1, h2, h3⟩ := plainSegs_cons hp
    simp only [dirNode.Get, h1, h2, if_neg, if_false]
    cases hc : childGet node.Children p with
    | none => simp [nodeAt, hc]
    | some c =>
      cases rest with
      | nil => simp [nodeAt, hc]
      | cons q r =>
        simp only [nodeAt, hc]
        exact Get_plain (q :: r) c (node :: anc) h3 (by simp)

theorem GetCanon_plain : ∀ (segs : List String) (node : dirNode) (anc : List dirNode)
    (canon : List String), plainSegs segs = true → segs ≠ [] →
    dirNode.GetCanon node anc canon segs =
      (nodeAt node segs).map (fun m => (m, canon ++ segs))
  | [], _, _, _, _, h0 => absurd rfl h0
  | p :: rest, node, anc, canon, hp, _ => by
    obtain ⟨h1, h2, h3⟩ := plainSegs_cons hp
    simp only [dirNode.GetCanon, h1, h2, if_neg, if_false]
    cases hc : childGet node.Children p with
    | none => simp [nodeAt, hc]
    | some c =>
      cases rest with
      | nil => simp [nodeAt, hc]
      | cons q r =>
        show dirNode.GetCanon c (node :: anc) (canon ++ [p]) (q :: r) =
          Option.map (fun m => (m, canon ++ p :: q :: r)) (nodeAt node (p :: q :: r))
        rw [GetCanon_plain (q :: r) c (node :: anc) (canon ++ [p]) h3 (by simp)]
        have hz : nodeAt node (p :: q :: r) = nodeAt c (q :: r) := by
          simp [nodeAt, hc]
        rw [hz]
        have ha : canon ++ [p] ++ (q :: r) = canon ++ p :: q :: r := by simp
        rw [ha]

/-- Ancestor-chain invariant: from `root`, the literal path `canon` leads
to `m`, and `anc` lists the intermediate nodes, nearest first (exactly the
source's `Parent` pointer chain of `m`). -/
inductive Chain (root : dirNode) : List String → dirNode → List dirNode → Prop where
  | nil : Chain root [] root []
  | cons {q : List String} {m : dirNode} {anc : List dirNode} {p : String} {c : dirNode} :
      Chain root q m anc → childGet m.Children p = some c → Chain root (q ++ [p]) c (m :: anc)

theorem nodeAt_append (q : List String) (p : String) :
    ∀ n : dirNode, nodeAt n (q ++ [p]) =
      match nodeAt n q with
      | none => none
      | some m => childGet m.Children p := by
  induction q with
  | nil =>
    intro n
    cases hc : childGet n.Children p with
    | none => simp [nodeAt, hc]
    | some c => simp [nodeAt, hc]
  | cons r rs ih =>
    intro n
    cases hc : childGet n.Children r with
    | none => simp [nodeAt, hc]
    | some c => simp [nodeAt, hc, ih c]

theorem Chain.nodeAt_eq {root : dirNode} {canon : List String} {m : dirNode}
    {anc : List dirNode} (h : Chain root canon m anc) : nodeAt root canon = some m := by
  induction h with
  | nil => rfl
  | cons hq hc ih => rw [nodeAt_append, ih]; exact hc

theorem GetCanon_chain {root : dirNode} :
    ∀ (segs : List String) (node : dirNode) (anc : List dirNode) (canon : List String)
      (m : dirNode) (canon2 : List String), Chain root canon node anc →
      dirNode.GetCanon node anc canon segs = some (m, canon2) →
      ∃ anc2, Chain root canon2 m anc2
  | [], _, _, _, _, _, _, hg => by simp [dirNode.GetCanon] at hg
  | p :: rest, node, anc, canon, m, canon2, hch, hg => by
    by_cases h1 : p = "."
    · simp only [dirNode.GetCanon, h1, reduceIte] at hg
      cases rest with
      | nil =>
        injection hg with hg2
        rw [Prod.mk.injEq] at hg2
        obtain ⟨hm, hcanon⟩ := hg2
        subst hm
        subst hcanon
        exact ⟨anc, hch⟩
      | cons q r => exact GetCanon_chain (q :: r) node anc canon m canon2 hch hg
    · by_cases h2 : p = ".."
      · simp only [dirNode.GetCanon, h1, h2, reduceIte] at hg
        cases anc with
        | nil => simp at hg
        | cons a anc2 =>
          cases hch with
          | cons hq hc =>
            rw [List.dropLast_concat] at hg
            cases rest with
            | nil =>
              injection hg with hg2
              rw [Prod.mk.injEq] at hg2
              obtain ⟨hm, hcanon⟩ := hg2
              subst hm
              subst hcanon
              exact ⟨anc2, hq⟩
            | cons q r => exact GetCanon_chain (q :: r) a anc2 _ m canon2 hq hg
      · simp only [dirNode.GetCanon, h1, h2, reduceIte] at hg
        cases hc : childGet node.Children p with
        | none => rw [hc] at hg; simp at hg
        | some c =>
          rw [hc] at hg
          have hch2 : Chain root (canon ++ [p]) c (node :: anc) := hch.cons hc
          cases rest with
          | nil =>
            injection hg with hg2
            rw [Prod.mk.injEq] at hg2
            obtain ⟨hm, hcanon⟩ := hg2
            subst hm
            subst hcanon
            exact ⟨node :: anc, hch2⟩
          | cons q r =>
            exact GetCanon_chain (q :: r) c (node :: anc) (canon ++ [p]) m canon2 hch2 hg

theorem GetCanon_nodeAt {root : dirNode} {segs canon : List String} {m : dirNode}
    (h : dirNode.GetCanon root [] [] segs = some (m, canon)) : nodeAt root canon = some m := by
  obtain ⟨anc2, hch⟩ := GetCanon_chain segs root [] [] m canon Chain.nil h
  exact hch.nodeAt_eq

theorem Get_eq_GetCanon : ∀ (segs : List String) (node : dirNode) (anc : List dirNode)
    (canon : List String),
    dirNode.Get node anc segs = (dirNode.GetCanon node anc canon segs).map Prod.fst
  | [], _, _, _ => rfl
  | p :: rest, node, anc, canon => by
    by_cases h1 : p = "."
    · simp only [dirNode.Get, dirNode.GetCanon, h1, reduceIte]
      cases rest with
      | nil => rfl
      | cons q r => exact Get_eq_GetCanon (q :: r) node anc canon
    · by_cases h2 : p = ".."
      · simp only [dirNode.Get, dirNode.GetCanon, h1, h2, reduceIte]
        cases anc with
        | nil => rfl
        | cons a anc2 =>
          cases rest with
          | nil => rfl
          | cons q r => exact Get_eq_GetCanon (q :: r) a anc2 canon.dropLast
      · simp only [dirNode.Get, dirNode.GetCanon, h1, h2, reduceIte]
        cases hc : childGet node.Children p with
        | none => rfl
        | some c =>
          cases rest with
          | nil => rfl
          | cons q r => exact Get_eq_GetCanon (q :: r) c (node :: anc) (canon ++ [p])

/-! The effect of a `Create`-origin commit on the tree: the committed path
holds a node with exactly the buffered content, and the content slice (in
particular its nil-ness, i.e. the file/directory kind) of every other node
is untouched. -/

theorem createClose_nodeAt (root : dirNode) {segs : List String} (b : Bytes)
    (hp : plainSegs segs = true) (h0 : segs ≠ []) :
    ∃ m, nodeAt (MemFS.createClose root segs b) segs = some m ∧ m.B = some b := by
  have hplain := GetCanon_plain segs root [] [] hp h0
  rw [List.nil_append] at hplain
  unfold MemFS.createClose
  rw [hplain]
  cases hn : nodeAt root segs with
  | none =>
    obtain ⟨m, hm⟩ := nodeAt_AddDescendant (some b) segs root h0
    have hupd := nodeAt_updateAt_self (fun n => n.withB (some b)) (fun x => by simp) segs _ m hm
    exact ⟨m.withB (some b), hupd, by simp⟩
  | some n1 =>
    have hupd := nodeAt_updateAt_self (fun n => n.withB (some b)) (fun x => by simp) segs root n1 hn
    exact ⟨n1.withB (some b), hupd, by simp⟩

theorem createClose_preserves_file {root : dirNode} {segs q : List String} {m : dirNode}
    (b : Bytes) (h : nodeAt root q = some m) (hb : m.B ≠ none) :
    ∃ m2, nodeAt (MemFS.createClose root segs b) q = some m2 ∧ m2.B ≠ none := by
  unfold MemFS.createClose
  cases hg : dirNode.GetCanon root [] [] segs with
  | none =>
    obtain ⟨m1, hm1, hB1⟩ := nodeAt_AddDescendant_frame (some b) segs q root m h
    by_cases hq : segs = q
    · subst hq
      have hupd := nodeAt_updateAt_self (fun n => n.withB (some b)) (fun x => by simp) segs _ m1 hm1
      exact ⟨m1.withB (some b), hupd, by simp⟩
    · obtain ⟨m2, hm2, hB2, hN2⟩ := nodeAt_updateAt_ne (fun n => n.withB (some b))
        (fun x => by simp) (fun x => by simp) segs q _ m1 hq hm1
      refine ⟨m2, hm2, ?_⟩
      rw [hB2, hB1]
      exact hb
  | some pr =>
    obtain ⟨n0, canon⟩ := pr
    by_cases hq : canon = q
    · subst hq
      have hupd := nodeAt_updateAt_self (fun n => n.withB (some b)) (fun x => by simp) canon root m h
      exact ⟨m.withB (some b), hupd, by simp⟩
    · obtain ⟨m2, hm2, hB2, hN2⟩ := nodeAt_updateAt_ne (fun n => n.withB (some b))
        (fun x => by simp) (fun x => by simp) canon q root m hq h
      refine ⟨m2, hm2, ?_⟩
      rw [hB2]
      exact hb

theorem appendClose_preserves_file {root : dirNode} {canon q : List String} {m : dirNode}
    (buf : Bytes) (h : nodeAt root q = some m) (hb : m.B ≠ none) :
    ∃ m2, nodeAt (updateAt (fun n => n.withB (appendB n.B buf)) root canon) q = some m2 ∧
      m2.B ≠ none := by
  by_cases hq : canon = q
  · subst hq
    have hupd := nodeAt_updateAt_self (fun n => n.withB (appendB n.B buf)) (fun x => by simp)
      canon root m h
    refine ⟨m.withB (appendB m.B buf), hupd, ?_⟩
    simp only [dirNode.B_withB]
    cases hB : m.B with
    | none => exact absurd hB hb
    | some c => cases buf <;> simp [appendB]
  · obtain ⟨m2, hm2, hB2, hN2⟩ := nodeAt_updateAt_ne (fun n => n.withB (appendB n.B buf))
      (fun x => by simp) (fun x => by simp) canon q root m hq h
    refine ⟨m2, hm2, ?_⟩
    rw [hB2]
    exact hb

theorem Open_plain_file {root : dirNode} {p : String} {m : dirNode} {c : Bytes}
    (hp : plainSegs (nameToPath p) = true) (h0 : nameToPath p ≠ [])
    (hn : nodeAt root (nameToPath p) = some m) (hB : m.B = some c) :
    MemFS.Open root p = .ok (.file p c) := by
  unfold MemFS.Open
  rw [Get_plain (nameToPath p) root [] hp h0, hn]
  simp [dirNode.IsDirectory, hB]

mutual

theorem dfsPaths_length : ∀ (n : dirNode) (pre : String),
    (dirNode.dfsPaths n pre).length = dirNode.size n
  | .mk nm b cs, pre => by
    simp only [dirNode.dfsPaths, dirNode.size, List.length_cons]
    rw [dfsPathsList_length cs pre]
    omega

theorem dfsPathsList_length : ∀ (cs : List dirNode) (pre : String),
    (dfsPathsList cs pre).length = sizeList cs
  | [], _ => rfl
  | c :: cs, pre => by
    simp only [dfsPathsList, sizeList, List.length_append]
    rw [dfsPaths_length c, dfsPathsList_length cs]

end

/-! Pagination: draining a loaded cache with any positive page size
returns the whole cache and finishes with `io.EOF`. -/

theorem drainPages_loaded (root : dirNode) (name : String) (n : Int) (hn : 1 ≤ n) :
    ∀ (fuel : Nat) (l : List dirEntry), l.length + 1 ≤ fuel →
      drainPages root n ⟨name, some l⟩ fuel = (l, some .eof) := by
  intro fuel
  induction fuel with
  | zero =>
    intro l hl
    omega
  | succ fuel ih =>
    intro l hl
    cases l with
    | nil =>
      have hna : ¬ n < 0 := by omega
      simp [drainPages, memDir.ReadDir, memDir.ReadDirLoaded, hna]
    | cons e es =>
      have hl2 : es.length + 2 ≤ fuel + 1 := by simpa using hl
      have hcond : ¬ (e :: es) = ([] : List dirEntry) := by simp
      have hstep : memDir.ReadDir root ⟨name, some (e :: es)⟩ n =
          (⟨name, some ((e :: es).drop
              (if n < 0 ∨ ((e :: es).length : Int) < n then (e :: es).length else n.toNat))⟩,
            ((e :: es).take
              (if n < 0 ∨ ((e :: es).length : Int) < n then (e :: es).length else n.toNat),
              none)) := by
        simp [memDir.ReadDir, memDir.ReadDirLoaded, hcond]
      by_cases hlt : ((e :: es).length : Int) < n
      · have hsz : (if n < 0 ∨ ((e :: es).length : Int) < n then (e :: es).length else n.toNat)
            = (e :: es).length := by
          rw [if_pos (Or.inr hlt)]
        rw [hsz] at hstep
        simp only [drainPages, hstep, List.drop_length, List.take_length]
        rw [ih [] (by simp only [List.length_nil]; omega)]
        simp
      · have hn0 : ¬ n < 0 := by omega
        have hsz : (if n < 0 ∨ ((e :: es).length : Int) < n then (e :: es).length else n.toNat)
            = n.toNat := by
          rw [if_neg]
          push_neg
          exact ⟨le_of_not_lt hn0, not_lt.mp hlt⟩
        rw [hsz] at hstep
        have hk1 : 1 ≤ n.toNat := by omega
        have hk2 : n.toNat ≤ (e :: es).length := by omega
        have hrec := ih ((e :: es).drop n.toNat) (by
          simp only [List.length_drop]
          omega)
        simp only [drainPages, hstep]
        rw [hrec]
        simp [List.take_append_drop]

theorem drainPages_fresh (root : dirNode) (name : String) (entries : List dirEntry) (n : Int)
    (hok : MemFS.ReadDir root name = .ok entries) (hn : 1 ≤ n) (fuel : Nat)
    (hfuel : entries.length + 1 ≤ fuel) :
    drainPages root n ⟨name, none⟩ fuel = (entries, some .eof) := by
  cases fuel with
  | zero => omega
  | succ f =>
    have hq : drainPages root n ⟨name, none⟩ (f + 1) =
        drainPages root n ⟨name, some entries⟩ (f + 1) := by
      simp only [drainPages, memDir.ReadDir, hok]
    rw [hq]
    exact drainPages_loaded root name n hn (f + 1) entries hfuel

theorem childGet_mem : ∀ {cs : List dirNode} {p : String} {c : dirNode},
    childGet cs p = some c → c ∈ cs
  | [], _, _, h => by simp [childGet] at h
  | d :: ds, p, c, h => by
    by_cases hd : d.Name = p
    · simp only [childGet, hd, if_pos] at h
      injection h with h2
      rw [h2]
      exact List.mem_cons_self c ds
    · simp only [childGet, hd, if_neg, if_false] at h
      exact List.mem_cons_of_mem d (childGet_mem h)

end SimpleFS

/-! Claim theorems. -/

namespace SimpleFS

/-- C1: Commit-on-close visibility. Opening a write handle with `Create`
or `Append` and writing to it leaves the tree untouched, so every read
observation (`Open`, `ReadDir`, `ListFiles`, and paginated reads on an
already-open directory handle, which consult only the root; an open file
handle holds a by-value snapshot) is unchanged until that handle's
`Close`; in particular `Open` on a never-written path still fails
`NotFound`, and on an existing file still returns the old content. -/
theorem C1_commit_on_close (s : St) (p q : String) (b : Bytes) (i : Nat) :
    (run s [.create p, .write i b]).root = s.root ∧
    (run s [.append p, .write i b]).root = s.root ∧
    (MemFS.Open (run s [.create p, .write i b]).root q = MemFS.Open s.root q) ∧
    (MemFS.ReadDir (run s [.create p, .write i b]).root q = MemFS.ReadDir s.root q) ∧
    (MemFS.ListFiles (run s [.create p, .write i b]).root q = MemFS.ListFiles s.root q) ∧
    (∀ (d : memDir) (n : Int), memDir.ReadDir (run s [.create p, .write i b]).root d n
        = memDir.ReadDir s.root d n) ∧
    (MemFS.Open s.root p = .error .notFound →
      MemFS.Open (run s [.create p, .write i b]).root p = .error .notFound ∧
      MemFS.Open (run s [.append p, .write i b]).root p = .error .notFound) ∧
    (∀ c : Bytes, MemFS.Open s.root p = .ok (.file p c) →
      MemFS.Open (run s [.create p, .write i b]).root p = .ok (.file p c) ∧
      MemFS.Open (run s [.append p, .write i b]).root p = .ok (.file p c)) := by
  have h1 : (run s [.create p, .write i b]).root = s.root := rfl
  have h2 : (run s [.append p, .write i b]).root = s.root := rfl
  refine ⟨h1, h2, by rw [h1], by rw [h1], by rw [h1], fun d n => by rw [h1],
    fun h => ⟨by rw [h1]; exact h, by rw [h2]; exact h⟩,
    fun c h => ⟨by rw [h1]; exact h, by rw [h2]; exact h⟩⟩

theorem C1_commit_on_close_witness :
    MemFS.Open (run ⟨MemFS.emptyRoot, []⟩ [.create "f", .write 0 [1]]).root "f"
      = .error .notFound := by
  have h := C1_commit_on_close ⟨MemFS.emptyRoot, []⟩ "f" "f" [1] 0
  exact (h.2.2.2.2.2.2.1 (by decide)).1

/-- C2 counterexample: the claim quantifies over every path, but for
`p = "./x"` the sequence `Create(p)`, `Write([1])`, `Close` commits under
a literal `"."`-named child (get-or-create does not interpret `.`), while
`Open(p)` resolves `.` to the current node, so the subsequent `Open(p)`
fails `NotFound` instead of returning the bytes. -/
theorem C2_counterexample :
    MemFS.Open (run ⟨MemFS.emptyRoot, []⟩ [.create "./x", .write 0 [1], .close 0]).root "./x"
      = .error .notFound ∧
    (Except.error Err.notFound : Except Err OpenResult) ≠ .ok (.file "./x" [1]) :=
  ⟨by decide, by decide⟩

/-- C2 (amended): for every path whose segments contain neither `.` nor
`..`, `Create(p)`, `Write(b)`, `Close` (the machine trace equals a direct
commit) makes `Open(p)` succeed with exactly `b`, and a second
`Create(p)`, `Write(b2)`, `Close` replaces the content wholesale, so a
full read then returns exactly `b2`. -/
theorem C2_create_roundtrip (root : dirNode) (p : String) (b b2 : Bytes)
    (hp : plainSegs (nameToPath p) = true) (h0 : nameToPath p ≠ []) :
    (run ⟨root, []⟩ [.create p, .write 0 b, .close 0]).root
        = MemFS.createClose root (nameToPath p) b ∧
    MemFS.Open (MemFS.createClose root (nameToPath p) b) p = .ok (.file p b) ∧
    MemFS.Open (MemFS.createClose (MemFS.createClose root (nameToPath p) b) (nameToPath p) b2) p
        = .ok (.file p b2) := by
  obtain ⟨m1, hm1, hB1⟩ := createClose_nodeAt root b hp h0
  obtain ⟨m2, hm2, hB2⟩ :=
    createClose_nodeAt (MemFS.createClose root (nameToPath p) b) b2 hp h0
  exact ⟨rfl, Open_plain_file hp h0 hm1 hB1, Open_plain_file hp h0 hm2 hB2⟩

theorem C2_create_roundtrip_witness :
    MemFS.Open (MemFS.createClose MemFS.emptyRoot (nameToPath "a/b") [1, 2]) "a/b"
      = .ok (.file "a/b" [1, 2]) :=
  (C2_create_roundtrip MemFS.emptyRoot "a/b" [1, 2] [3] (by decide) (by decide)).2.1

/-- C3 counterexample: `Append` does not append to the snapshot taken at
`Append` call time, and an interleaved commit is not lost. After
`Create("f")=[1]`, take an append handle (snapshot content `[1]`), let
another `Create("f")` commit `[2]`, then close the append handle with
buffered `[3]`: the code yields `[2, 3]` (the close appends to the content
found at close time), not the claimed `[1] ++ [3] = [1, 3]` with the
`[2]` commit lost. -/
theorem C3_counterexample :
    MemFS.Open (run ⟨MemFS.emptyRoot, []⟩
      [.create "f", .write 0 [1], .close 0,
       .append "f",
       .create "f", .write 2 [2], .close 2,
       .write 1 [3], .close 1]).root "f" = .ok (.file "f" [2, 3]) ∧
    ([2, 3] : Bytes) ≠ [1] ++ [3] :=
  ⟨by decide, by decide⟩

/-- C3 (amended): if `p` resolves to an existing file with content `c`,
`Append(p)` captures a reference to that node (its canonical path); when
the handle closes with buffered `b`, the close appends `b` to the node's
content at close time. Sequentially that is `c ++ b`; if another writer
committed `b2` to `p` between `Append` and this close, the result is
`b2 ++ b` (the earlier commit is preserved as the prefix, not lost). If no
node exists at `p`, `Append` behaves exactly as `Create`. -/
theorem C3_append_semantics (root : dirNode) (p : String) (c b b2 : Bytes) (node : dirNode)
    (canon : List String)
    (hg : dirNode.GetCanon root [] [] (nameToPath p) = some (node, canon))
    (hfile : node.B = some c) :
    MemFS.Append root p = ⟨.nodeRef canon, []⟩ ∧
    (∃ m, nodeAt (writeCloser.Close root ⟨.nodeRef canon, b⟩) canon = some m ∧
      m.B = some (c ++ b)) ∧
    (∃ m, nodeAt (writeCloser.Close (MemFS.createClose root (nameToPath p) b2)
        ⟨.nodeRef canon, b⟩) canon = some m ∧ m.B = some (b2 ++ b)) ∧
    (∀ (r : dirNode) (q : String), dirNode.GetCanon r [] [] (nameToPath q) = none →
      MemFS.Append r q = MemFS.Create r q) := by
  have hroot : nodeAt root canon = some node := GetCanon_nodeAt hg
  refine ⟨?_, ?_, ?_, fun r q h => ?_⟩
  · unfold MemFS.Append
    rw [hg]
  · have hupd := nodeAt_updateAt_self (fun n => n.withB (appendB n.B b)) (fun x => by simp)
      canon root node hroot
    refine ⟨node.withB (appendB node.B b), hupd, ?_⟩
    simp [hfile, appendB]
  · have hroot1 : nodeAt (MemFS.createClose root (nameToPath p) b2) canon
        = some (node.withB (some b2)) := by
      unfold MemFS.createClose
      rw [hg]
      exact nodeAt_updateAt_self (fun n => n.withB (some b2)) (fun x => by simp) canon root node
        hroot
    have hupd := nodeAt_updateAt_self (fun n => n.withB (appendB n.B b)) (fun x => by simp)
      canon _ _ hroot1
    refine ⟨(node.withB (some b2)).withB (appendB (node.withB (some b2)).B b), hupd, ?_⟩
    simp [appendB]
  · unfold MemFS.Append
    rw [h]

theorem C3_append_semantics_witness :
    ∃ m, nodeAt (writeCloser.Close (MemFS.createClose MemFS.emptyRoot (nameToPath "f") [1])
      ⟨.nodeRef ["f"], [3]⟩) ["f"] = some m ∧ m.B = some ([1] ++ [3]) :=
  (C3_append_semantics (MemFS.createClose MemFS.emptyRoot (nameToPath "f") [1]) "f" [1] [3] [2]
    (dirNode.mk "f" (some [1]) []) ["f"] (by rfl) (by rfl)).2.1

/-- C4: for every path resolving to a directory node, `ReadDir` succeeds
and returns the sorted entry list built from exactly the direct children
(one `{base name, isDirectory}` entry each, nothing deeper): the output is
a permutation of the children's entries, sorted ascending by name
(insertion order is irrelevant since sorting happens at read time). A
directory containing only a subdirectory is such a node, so it never
fails `NotFound`. -/
theorem C4_readdir (root : dirNode) (d : String) (node : dirNode)
    (hg : dirNode.Get root [] (nameToPath d) = some node) (hdir : node.B = none) :
    MemFS.ReadDir root d = .ok (sortEntries (node.Children.map entryOf)) ∧
    List.Perm (sortEntries (node.Children.map entryOf)) (node.Children.map entryOf) ∧
    List.Sorted entryLE (sortEntries (node.Children.map entryOf)) := by
  refine ⟨?_, List.perm_insertionSort entryLE _, List.sorted_insertionSort entryLE _⟩
  unfold MemFS.ReadDir
  rw [hg]
  simp [dirNode.IsDirectory, hdir]

theorem C4_readdir_witness :
    MemFS.ReadDir (MemFS.createClose MemFS.emptyRoot (nameToPath "d/f") [1]) "d"
      = .ok (sortEntries ((dirNode.mk "d" none [dirNode.mk "f" (some [1]) []]).Children.map
          entryOf)) :=
  (C4_readdir (MemFS.createClose MemFS.emptyRoot (nameToPath "d/f") [1]) "d"
    (dirNode.mk "d" none [dirNode.mk "f" (some [1]) []]) (by rfl) (by rfl)).1

/-- C5 counterexample: `ReadDir` and `ListFiles` on a path holding a file
return `ErrNotFound` itself, the same error used for absent paths, not an
error distinct from `NotFound`. -/
theorem C5_counterexample :
    MemFS.ReadDir (MemFS.createClose MemFS.emptyRoot (nameToPath "f") [1]) "f"
        = .error .notFound ∧
    MemFS.ListFiles (MemFS.createClose MemFS.emptyRoot (nameToPath "f") [1]) "f"
        = some (.error .notFound) ∧
    MemFS.ReadDir (MemFS.createClose MemFS.emptyRoot (nameToPath "f") [1]) "absent"
        = .error .notFound :=
  ⟨by decide, by decide, by decide⟩

/-- C5 (amended): for every path at which a file exists, `ReadDir(p)` and
`ListFiles(p)` fail with `NotFound` (the very error used for absent
paths; there is no distinct FS-level `NotADirectory`); only the
handle-level directory-listing call on a file handle fails with a
distinct "Path is a file" error, which differs from `NotFound`. -/
theorem C5_file_errors (root : dirNode) (p : String) (node : dirNode) (canon : List String)
    (hg : dirNode.GetCanon root [] [] (nameToPath p) = some (node, canon))
    (hfile : node.IsDirectory = false) :
    MemFS.ReadDir root p = .error .notFound ∧
    MemFS.ListFiles root p = some (.error .notFound) ∧
    (∀ (f : memFile) (n : Int), memFile.ReadDir f n = .error (.isFile f.name)) ∧
    (∀ name : String, Err.isFile name ≠ Err.notFound) := by
  refine ⟨?_, ?_, fun f n => rfl, fun name => by simp⟩
  · unfold MemFS.ReadDir
    rw [Get_eq_GetCanon (nameToPath p) root [] [], hg]
    simp [hfile]
  · unfold MemFS.ListFiles
    rw [hg]
    simp [hfile]

theorem C5_file_errors_witness :
    MemFS.ReadDir (MemFS.createClose MemFS.emptyRoot (nameToPath "f") [1]) "f"
      = .error .notFound :=
  (C5_file_errors (MemFS.createClose MemFS.emptyRoot (nameToPath "f") [1]) "f"
    (dirNode.mk "f" (some [1]) []) ["f"] (by rfl) (by rfl)).1

/-- C6: evaluation at the failing input. `Open` and `ReadDir` on an
unresolvable path fail `NotFound` (including `..` at the root), but
`ListFiles` on an unresolvable path does not fail `NotFound`: the source
calls `DFS` through a nil node pointer and panics (modelled `none`). -/
theorem C6_resolution_eval :
    MemFS.ListFiles MemFS.emptyRoot "nosuch" = none ∧
    MemFS.ReadDir MemFS.emptyRoot "nosuch" = .error .notFound ∧
    MemFS.Open MemFS.emptyRoot "nosuch" = .error .notFound ∧
    MemFS.Open MemFS.emptyRoot ".." = .error .notFound :=
  ⟨by decide, by decide, by decide, by decide⟩

/-- C7: pagination equivalence. For a directory handle over a path whose
`ReadDir` succeeds with `entries`, repeatedly calling the handle's
`ReadDir(n)` with any page size `n ≥ 1` until a signal arrives yields,
concatenated, exactly `entries` and finishes with `io.EOF` — the same
sequence a fresh handle returns in one `ReadDir(-1)` call (with a normal,
signal-free result). The `Exhausted` outcome itself is an empty entry
list paired with `io.EOF`, not a failure. -/
theorem C7_pagination (root : dirNode) (name : String) (entries : List dirEntry) (n : Int)
    (fuel : Nat) (hok : MemFS.ReadDir root name = .ok entries) (hn : 1 ≤ n)
    (hfuel : entries.length + 1 ≤ fuel) :
    drainPages root n ⟨name, none⟩ fuel = (entries, some .eof) ∧
    (memDir.ReadDir root ⟨name, none⟩ (-1)).2 = (entries, none) ∧
    memDir.ReadDir root ⟨name, some []⟩ n = (⟨name, some []⟩, ([], some .eof)) := by
  refine ⟨drainPages_fresh root name entries n hok hn fuel hfuel, ?_, ?_⟩
  · simp only [memDir.ReadDir, hok]
    cases entries with
    | nil => simp [memDir.ReadDirLoaded]
    | cons e es =>
      have hcond : ¬ (e :: es) = ([] : List dirEntry) := by simp
      have hneg : ((-1 : Int) < 0) := by omega
      simp [memDir.ReadDirLoaded, hcond, hneg]
  · have hge : ¬ (n < 0) := by omega
    simp [memDir.ReadDir, memDir.ReadDirLoaded, hge]

theorem C7_pagination_witness :
    drainPages (MemFS.createClose MemFS.emptyRoot (nameToPath "d/f") [1]) 1 ⟨"d", none⟩ 2
      = ([⟨"f", false⟩], some .eof) :=
  (C7_pagination (MemFS.createClose MemFS.emptyRoot (nameToPath "d/f") [1]) "d"
    [⟨"f", false⟩] 1 2 (by decide) (by decide) (by decide)).1

/-- C8 counterexample: on an existing directory `dir1` holding files
`file1A`, `file1B` and a subdirectory `sub` with a nested file,
`ListFiles` returns the full slash-prefixed paths of every subtree node —
the directory itself, the subdirectory, and the nested file included —
not the base names `["file1A", "file1B"]` of the direct file children. -/
theorem C8_counterexample :
    MemFS.ListFiles (run ⟨MemFS.emptyRoot, []⟩
        [.create "dir1/file1A", .close 0,
         .create "dir1/file1B", .close 1,
         .create "dir1/sub/deep", .close 2]).root "dir1"
      = some (.ok ["/dir1", "/dir1/file1A", "/dir1/file1B", "/dir1/sub", "/dir1/sub/deep"]) ∧
    (["/dir1", "/dir1/file1A", "/dir1/file1B", "/dir1/sub", "/dir1/sub/deep"] : List String)
      ≠ ["file1A", "file1B"] :=
  ⟨by decide, by decide⟩

/-- C8 (amended): for every path resolving to a directory node,
`ListFiles` returns one full path (`dirNode.Path()`) per node of the
whole subtree in depth-first preorder — as many entries as the subtree
has nodes, headed by the directory's own path — instead of the base
names of direct file children; when the path names a file it fails
`NotFound` (not a distinct `NotADirectory`), and when the path does not
resolve it crashes (nil dereference, `none`) instead of failing
`NotFound`. -/
theorem C8_listfiles (root : dirNode) (p : String) (node : dirNode) (canon : List String)
    (hg : dirNode.GetCanon root [] [] (nameToPath p) = some (node, canon)) :
    (node.IsDirectory = true →
      MemFS.ListFiles root p = some (.ok (node.dfsPaths (pathOfCanon canon))) ∧
      (node.dfsPaths (pathOfCanon canon)).length = node.size ∧
      (node.dfsPaths (pathOfCanon canon)).head? = some (pathOfCanon canon)) ∧
    (node.IsDirectory = false → MemFS.ListFiles root p = some (.error .notFound)) ∧
    (∀ q : String, dirNode.GetCanon root [] [] (nameToPath q) = none →
      MemFS.ListFiles root q = none) := by
  refine ⟨fun hdir => ⟨?_, dfsPaths_length node _, ?_⟩, fun hfile => ?_, fun q hq => ?_⟩
  · unfold MemFS.ListFiles
    rw [hg]
    simp [hdir]
  · cases node
    rfl
  · unfold MemFS.ListFiles
    rw [hg]
    simp [hfile]
  · unfold MemFS.ListFiles
    rw [hq]

theorem C8_listfiles_witness :
    MemFS.ListFiles (MemFS.createClose MemFS.emptyRoot (nameToPath "d/f") [1]) "d"
      = some (.ok ((dirNode.mk "d" none [dirNode.mk "f" (some [1]) []]).dfsPaths
          (pathOfCanon ["d"]))) :=
  ((C8_listfiles (MemFS.createClose MemFS.emptyRoot (nameToPath "d/f") [1]) "d"
    (dirNode.mk "d" none [dirNode.mk "f" (some [1]) []]) ["d"] (by rfl)).1 (by rfl)).1

/-- C9 counterexample: `Create("d/f")` makes `d` a directory; a later
`Create("d")` committing `[7]` sets `d`'s content slice, turning the
directory node into a file node (children retained) — the node's kind is
not fixed for its lifetime. -/
theorem C9_counterexample :
    ((nodeAt (run ⟨MemFS.emptyRoot, []⟩ [.create "d/f", .close 0]).root ["d"]).map
        dirNode.IsDirectory = some true) ∧
    ((nodeAt (run ⟨MemFS.emptyRoot, []⟩
        [.create "d/f", .close 0, .create "d", .write 1 [7], .close 1]).root ["d"]).map
        dirNode.IsDirectory = some false) :=
  ⟨by decide, by decide⟩

/-- C9 (amended): kind is observed as the nil-ness of the content slice,
so every node is exactly one of file or directory at any time; a node
that is a file never becomes a directory under any `Create` or `Append`
commit (reads change nothing); but the converse is false — a commit
whose target is an existing directory converts it to a file (see the
counterexample). -/
theorem C9_kind_stability (root : dirNode) (q : List String) (m : dirNode)
    (hm : nodeAt root q = some m) (hfile : m.IsDirectory = false) :
    (∀ (segs : List String) (b : Bytes), ∃ m2,
        nodeAt (MemFS.createClose root segs b) q = some m2 ∧ m2.IsDirectory = false) ∧
    (∀ (canon : List String) (buf : Bytes), ∃ m2,
        nodeAt (writeCloser.Close root ⟨.nodeRef canon, buf⟩) q = some m2 ∧
          m2.IsDirectory = false) := by
  have hb : m.B ≠ none := by
    intro hc
    rw [dirNode.IsDirectory, hc] at hfile
    simp at hfile
  constructor
  · intro segs b
    obtain ⟨m2, hm2, hb2⟩ := createClose_preserves_file b hm hb
    refine ⟨m2, hm2, ?_⟩
    cases hB2 : m2.B with
    | none => exact absurd hB2 hb2
    | some c => simp [dirNode.IsDirectory, hB2]
  · intro canon buf
    obtain ⟨m2, hm2, hb2⟩ := appendClose_preserves_file buf hm hb
    refine ⟨m2, hm2, ?_⟩
    cases hB2 : m2.B with
    | none => exact absurd hB2 hb2
    | some c => simp [dirNode.IsDirectory, hB2]

theorem C9_kind_stability_witness :
    ∃ m2, nodeAt (MemFS.createClose (MemFS.createClose MemFS.emptyRoot (nameToPath "f") [1])
      ["g"] [2]) ["f"] = some m2 ∧ m2.IsDirectory = false :=
  ((C9_kind_stability (MemFS.createClose MemFS.emptyRoot (nameToPath "f") [1]) ["f"]
    (dirNode.mk "f" (some [1]) []) (by rfl) (by rfl)).1 ["g"] [2])

/-- C10 counterexample: the claim quantifies over every path, but after
`Create("./e")` and an immediate `Close` with zero bytes written,
`Open("./e")` fails `NotFound` (the commit created a literal `"."` child
that resolution interprets as the current directory). -/
theorem C10_counterexample :
    MemFS.Open (run ⟨MemFS.emptyRoot, []⟩ [.create "./e", .close 0]).root "./e"
      = .error .notFound := by decide

/-- C10 (amended): for every path free of `.` and `..` segments,
`Create(p)` followed immediately by `Close` with zero bytes written
leaves at `p` a node whose content is the empty non-nil slice (`some []`,
substituted by `getBytes` for the empty buffer), hence a file and not a
directory: `Open(p)` succeeds with a file handle reading zero bytes, and
the entry for `p`'s base name in its parent's sorted `ReadDir` listing
has `isDirectory = false`. -/
theorem C10_empty_file (root : dirNode) (p : String)
    (hp : plainSegs (nameToPath p) = true) (h0 : nameToPath p ≠ []) :
    MemFS.Open (MemFS.createClose root (nameToPath p) []) p = .ok (.file p []) ∧
    (∃ m, nodeAt (MemFS.createClose root (nameToPath p) []) (nameToPath p) = some m ∧
      m.B = some [] ∧ m.IsDirectory = false) ∧
    (∀ (par : dirNode) (lst : String),
      nameToPath p = (nameToPath p).dropLast ++ [lst] →
      nodeAt (MemFS.createClose root (nameToPath p) []) ((nameToPath p).dropLast) = some par →
      dirEntry.mk lst false ∈ sortEntries (par.Children.map entryOf)) := by
  obtain ⟨m, hm, hB⟩ := createClose_nodeAt root [] hp h0
  refine ⟨Open_plain_file hp h0 hm hB, ⟨m, hm, hB, by simp [dirNode.IsDirectory, hB]⟩,
    fun par lst hsplit hpar => ?_⟩
  have happ := nodeAt_append ((nameToPath p).dropLast) lst
    (MemFS.createClose root (nameToPath p) [])
  rw [← hsplit, hm, hpar] at happ
  have hcg : childGet par.Children lst = some m := happ.symm
  have hmem : m ∈ par.Children := childGet_mem hcg
  have hname : m.Name = lst := childGet_name hcg
  have hentry : entryOf m = dirEntry.mk lst false := by
    simp [entryOf, hname, dirNode.IsDirectory, hB]
  rw [sortEntries]
  rw [List.mem_insertionSort]
  exact List.mem_map.mpr ⟨m, hmem, hentry⟩

theorem C10_empty_file_witness :
    MemFS.Open (MemFS.createClose MemFS.emptyRoot (nameToPath "d/e") []) "d/e"
      = .ok (.file "d/e" []) :=
  (C10_empty_file MemFS.emptyRoot "d/e" (by decide) (by decide)).1

end SimpleFS
